import Mathlib

/-!
# Verification of the Remove-BG batch image pipeline

A shallow embedding of `process_images.py`: image buffers become a structure
with a total pixel function, the per-image transforms (`unsharp_mask`,
`center_object`, the alpha-normalization and channel split/merge steps of
`process_image`) become Lean functions, and the batch loop of `main` becomes
a trace-producing function over an abstract world of external collaborators
(rembg + `cv2.imdecode` as a decode function, `cv2.GaussianBlur` as a blur
function, `mkdir` + `cv2.imwrite` as a write function).
-/

/-- An in-memory image buffer: height `H`, width `W`, `C` channels, and a
total pixel function `data y x c` (row, column, channel).  Only values at
`y < H`, `x < W`, `c < C` model real array cells; constructions fix the
out-of-range values so that buffer equality is meaningful. -/
@[ext]
structure Img where
  H : Nat
  W : Nat
  C : Nat
  data : Nat → Nat → Nat → Nat

/-- OpenCV `saturate_cast<uchar>`: clamp an integer into the 8-bit range. -/
def clamp255 (z : ℤ) : ℕ := (min 255 (max 0 z)).toNat

/-- OpenCV `cvRound`: round to nearest integer, ties to even. -/
def cvRound (q : ℚ) : ℤ :=
  if q - ⌊q⌋ < 1/2 then ⌊q⌋
  else if (1:ℚ)/2 < q - ⌊q⌋ then ⌊q⌋ + 1
  else if ⌊q⌋ % 2 = 0 then ⌊q⌋ else ⌊q⌋ + 1

/-- `cv2.addWeighted(src1, alpha, src2, beta, gamma)`: per-cell weighted sum
`alpha*src1 + beta*src2 + gamma`, rounded and saturated to 8 bits.  Output
shape is taken from `src1`. -/
def addWeighted (src1 : Img) (alpha : ℚ) (src2 : Img) (beta : ℚ) (gamma : ℚ) : Img :=
  { H := src1.H, W := src1.W, C := src1.C,
    data := fun y x c =>
      clamp255 (cvRound (alpha * (src1.data y x c : ℚ) + beta * (src2.data y x c : ℚ) + gamma)) }

/-- `unsharp_mask(img_bgr, strength, blur_sigma)` from `process_images.py`:
blur with `cv2.GaussianBlur` at sigma `blur_sigma` (the blur itself is an
external OpenCV primitive, modelled as the abstract function `gaussianBlur`
taking the sigma and the image), then `cv2.addWeighted(img_bgr, strength,
blurred, -(strength - 1), 0)`. -/
def unsharp_mask (gaussianBlur : ℚ → Img → Img) (img_bgr : Img)
    (strength : ℚ) (blur_sigma : ℚ) : Img :=
  let blurred := gaussianBlur blur_sigma img_bgr
  addWeighted img_bgr strength blurred (-(strength - 1)) 0

/-- The sharpening stage of `process_image`: split the 4-channel buffer into
`b, g, r, a`, run `unsharp_mask` on `merge([b, g, r])` with the default
strength `1.5` and sigma `3.0`, and re-merge the sharpened color channels
with the original alpha plane. -/
def sharpen_stage (gaussianBlur : ℚ → Img → Img) (img_rgba : Img) : Img :=
  let bgr : Img :=
    { H := img_rgba.H, W := img_rgba.W, C := 3,
      data := fun y x c => if c < 3 then img_rgba.data y x c else 0 }
  let sharpened := unsharp_mask gaussianBlur bgr (3/2) 3
  { H := sharpened.H, W := sharpened.W, C := 4,
    data := fun y x c =>
      if c < 3 then sharpened.data y x c
      else if c = 3 then img_rgba.data y x 3 else 0 }

/-- The alpha-normalization step of `process_image`: when the decoded buffer
has 3 channels, split into `b, g, r`, synthesize `alpha = np.full_like(b, 255)`
and `merge([b, g, r, alpha])`; otherwise the buffer passes through unchanged. -/
def ensure_alpha (img_rgba : Img) : Img :=
  if img_rgba.C = 3 then
    { H := img_rgba.H, W := img_rgba.W, C := 4,
      data := fun y x c =>
        if c < 3 then img_rgba.data y x c
        else if c = 3 then 255 else 0 }
  else img_rgba

/-- The sharpener output contract at a cell: the stated weighted-combination
value, and containment in the 8-bit range. -/
def SharpenedCell (gaussianBlur : ℚ → Img → Img) (img : Img) (y x c : Nat) : Prop :=
  (unsharp_mask gaussianBlur img (3/2) 3).data y x c
      = clamp255 (cvRound ((3/2) * (img.data y x c : ℚ)
          + (1 - 3/2) * ((gaussianBlur 3 img).data y x c : ℚ)))
    ∧ (unsharp_mask gaussianBlur img (3/2) 3).data y x c ≤ 255

/-! ## Canvas Centerer (`center_object`) -/

/-- Minimum of a list of naturals (`.min()` of a nonempty numpy array;
0 on the empty list, which the code never queries). -/
def minL : List Nat → Nat
  | [] => 0
  | [a] => a
  | a :: b :: t => min a (minL (b :: t))

/-- Maximum of a list of naturals (`.max()` of a nonempty numpy array). -/
def maxL : List Nat → Nat
  | [] => 0
  | [a] => a
  | a :: b :: t => max a (maxL (b :: t))

/-- Does row `y` contain a pixel with positive alpha (channel 3)? -/
def rowHasAlpha (img : Img) (y : Nat) : Bool :=
  (List.range img.W).any (fun x => decide (0 < img.data y x 3))

/-- Does column `x` contain a pixel with positive alpha? -/
def colHasAlpha (img : Img) (x : Nat) : Bool :=
  (List.range img.H).any (fun y => decide (0 < img.data y x 3))

/-- `np.any(alpha)`: is any in-bounds alpha value positive? -/
def anyAlpha (img : Img) : Bool :=
  (List.range img.H).any (rowHasAlpha img)

/-- The distinct row indices occurring in `ys` of `np.where(alpha > 0)`. -/
def ysList (img : Img) : List Nat :=
  (List.range img.H).filter (rowHasAlpha img)

/-- The distinct column indices occurring in `xs` of `np.where(alpha > 0)`. -/
def xsList (img : Img) : List Nat :=
  (List.range img.W).filter (colHasAlpha img)

/-- `y_min = ys.min()` of `center_object`. -/
def y_min (rgba : Img) : Nat := minL (ysList rgba)

/-- `y_max = ys.max()` of `center_object`. -/
def y_max (rgba : Img) : Nat := maxL (ysList rgba)

/-- `x_min = xs.min()` of `center_object`. -/
def x_min (rgba : Img) : Nat := minL (xsList rgba)

/-- `x_max = xs.max()` of `center_object`. -/
def x_max (rgba : Img) : Nat := maxL (xsList rgba)

/-- `h, w = roi.shape[:2]` where `roi = rgba[y_min:y_max+1, x_min:x_max+1]`:
the bounding-box height. -/
def roiH (rgba : Img) : Nat := y_max rgba + 1 - y_min rgba

/-- The bounding-box width. -/
def roiW (rgba : Img) : Nat := x_max rgba + 1 - x_min rgba

/-- `offset_y = (H - h) // 2`. -/
def offset_y (rgba : Img) : Nat := (rgba.H - roiH rgba) / 2

/-- `offset_x = (W - w) // 2`. -/
def offset_x (rgba : Img) : Nat := (rgba.W - roiW rgba) / 2

/-- `canvas = np.zeros_like(rgba)` followed by
`canvas[offset_y:offset_y+h, offset_x:offset_x+w] = roi`: every cell is 0
except the pasted bounding-box region, which reproduces the region of
`rgba` starting at `(y_min, x_min)`. -/
def canvas (rgba : Img) : Img :=
  { H := rgba.H, W := rgba.W, C := rgba.C,
    data := fun y x c =>
      if offset_y rgba ≤ y ∧ y < offset_y rgba + roiH rgba
          ∧ offset_x rgba ≤ x ∧ x < offset_x rgba + roiW rgba then
        rgba.data (y - offset_y rgba + y_min rgba) (x - offset_x rgba + x_min rgba) c
      else 0 }

/-- `center_object` from `process_images.py`: if no alpha value is positive,
return the input unchanged; otherwise paste the bounding-box region centered
on a fully transparent canvas of the same size. -/
def center_object (rgba : Img) : Img :=
  if anyAlpha rgba = true then canvas rgba else rgba

/-- The inclusive bounding box of the pixels with positive alpha, stated from
the specification: every in-bounds positive-alpha pixel lies inside it, and
all four bounds are attained by some positive-alpha pixel. -/
def IsBoundingBox (img : Img) (y0 y1 x0 x1 : Nat) : Prop :=
  (∀ y x, y < img.H → x < img.W → 0 < img.data y x 3 →
    y0 ≤ y ∧ y ≤ y1 ∧ x0 ≤ x ∧ x ≤ x1)
  ∧ (y0 < img.H ∧ ∃ x, x < img.W ∧ 0 < img.data y0 x 3)
  ∧ (y1 < img.H ∧ ∃ x, x < img.W ∧ 0 < img.data y1 x 3)
  ∧ (x0 < img.W ∧ ∃ y, y < img.H ∧ 0 < img.data y x0 3)
  ∧ (x1 < img.W ∧ ∃ y, y < img.H ∧ 0 < img.data y x1 3)

/-! ## Single-Image Pipeline (`process_image`) and Batch Orchestrator (`main`) -/

/-- Index of the last `.` in a list of characters, if any. -/
def lastDotIdx : List Char → Option Nat
  | [] => none
  | c :: t =>
    match lastDotIdx t with
    | some i => some (i + 1)
    | none => if c = '.' then some 0 else none

/-- `pathlib`'s `Path.suffix` on a file name: the part of the name from its
last dot on, provided that dot is neither the leading nor the final
character; otherwise the empty string. -/
def suffixOf (name : String) : String :=
  match lastDotIdx name.toList with
  | some i =>
    if 0 < i ∧ i + 1 < name.toList.length then String.mk (name.toList.drop i) else ""
  | none => ""

/-- `pathlib`'s `Path.stem`: the file name with `suffixOf` removed. -/
def stemOf (name : String) : String :=
  match lastDotIdx name.toList with
  | some i =>
    if 0 < i ∧ i + 1 < name.toList.length then String.mk (name.toList.take i) else name
  | none => name

/-- `str.lower()` (ASCII case folding, all the supported extensions are
ASCII). -/
def lowerStr (s : String) : String := String.mk (s.toList.map Char.toLower)

/-- The supported extensions `exts` of `main`. -/
def exts : List String := [".jpg", ".jpeg", ".png", ".webp", ".bmp", ".tiff"]

/-- The scan filter of `main`: `p.suffix.lower() in exts`. -/
def eligible (name : String) : Bool := exts.contains (lowerStr (suffixOf name))

/-- `out_name = f"{img_path.stem}_transparent.png"`. -/
def out_name (name : String) : String := stemOf name ++ "_transparent.png"

/-- `out_path = output_dir / out_name`. -/
def out_path (output_dir name : String) : String := output_dir ++ "/" ++ out_name name

/-- Code-point lexicographic comparison of character lists: how Python
compares the path strings that `sorted` orders. -/
def lexLe : List Char → List Char → Bool
  | [], _ => true
  | _ :: _, [] => false
  | a :: s1, b :: t1 =>
    if a.toNat < b.toNat then true
    else if b.toNat < a.toNat then false
    else lexLe s1 t1

/-- Lexicographic comparison of strings by code point. -/
def strLe (a b : String) : Bool := lexLe a.toList b.toList

/-- The external collaborators and I/O environment of one run:
`decode src` combines `src.read_bytes()`, `rembg.remove` and `cv2.imdecode`
(any exception collapses to `.error` with the message); `gaussianBlur` is
`cv2.GaussianBlur` (sigma, then image); `write dst img` combines
`dst.parent.mkdir(parents=True, exist_ok=True)` and
`cv2.imwrite(str(dst), img)`: `.error e` models an exception, `.ok b`
models a completed call whose boolean `b` is `cv2.imwrite`'s success flag
(`false` = no file written, signalled only by the return value). -/
structure World where
  decode : String → Except String Img
  gaussianBlur : ℚ → Img → Img
  write : String → Img → Except String Bool

/-- The pure image transform inside `process_image`: normalize alpha,
sharpen the color channels, optionally center. -/
def transformed (w : World) (center : Bool) (img : Img) : Img :=
  let final_rgba := sharpen_stage w.gaussianBlur (ensure_alpha img)
  if center then center_object final_rgba else final_rgba

/-- The write step of `process_image` (`dst.parent.mkdir(...)` +
`cv2.imwrite(str(dst), final_rgba)`), as the caller observes it: an
exception propagates, while a completed call always succeeds — the boolean
result of `cv2.imwrite` is discarded exactly as the source discards it.
The list collects the files actually written with their content. -/
def writeStep (w : World) (center : Bool) (dst : String) (img : Img) :
    Except String Unit × List (String × Img) :=
  match w.write dst (transformed w center img) with
  | .error e => (.error e, [])
  | .ok b => (.ok (), if b then [(dst, transformed w center img)] else [])

/-- One `process_image(src, dst, center)` call: decode (read + rembg +
imdecode), transform, then the write step. -/
def process_image (w : World) (center : Bool) (src dst : String) :
    Except String Unit × List (String × Img) :=
  match w.decode src with
  | .error e => (.error e, [])
  | .ok img => writeStep w center dst img

/-- One observable event of a batch run. -/
inductive Event where
  | invoked (src dst : String)
  | wrote (dst : String) (img : Img)
  | warned (name msg : String)

/-- The `for img_path in images:` loop of `main`: each item derives its
destination and invokes `process_image` inside `try/except Exception`,
which converts an exception into one warning carrying the file name and
the message; the loop then continues with the next item. -/
def runBatch (w : World) (center : Bool) (output_dir : String) :
    List String → List Event
  | [] => []
  | p :: rest =>
    (match process_image w center p (out_path output_dir p) with
     | (.ok _, ws) =>
       Event.invoked p (out_path output_dir p) :: ws.map (fun pr => Event.wrote pr.1 pr.2)
     | (.error e, ws) =>
       Event.invoked p (out_path output_dir p) ::
         ws.map (fun pr => Event.wrote pr.1 pr.2) ++ [Event.warned p e])
    ++ runBatch w center output_dir rest

/-- `main` as one run: enumerate the immediate children (`listing`), keep
those whose lower-cased extension is in `exts`, sort them, and run the
loop.  (With no eligible file the loop body never runs and the trace is
empty; prints are not modelled.) -/
def mainRun (w : World) (center : Bool) (output_dir : String)
    (listing : List String) : List Event :=
  runBatch w center output_dir
    (List.insertionSort (fun a b => strLe a b = true)
      (listing.filter (fun p => eligible p)))

/-- The `process_image` invocations of a trace, in order. -/
def invocationsOf (tr : List Event) : List (String × String) :=
  tr.filterMap (fun e =>
    match e with
    | Event.invoked s d => some (s, d)
    | _ => none)

/-- The warnings of a trace, in order: (file name, error message). -/
def warningsOf (tr : List Event) : List (String × String) :=
  tr.filterMap (fun e =>
    match e with
    | Event.warned n m => some (n, m)
    | _ => none)

/-- The file writes of a trace, in order: (destination, content). -/
def writesOf (tr : List Event) : List (String × Img) :=
  tr.filterMap (fun e =>
    match e with
    | Event.wrote d i => some (d, i)
    | _ => none)

/-- The content of destination `dst` after a run: the last write wins. -/
def finalFile (tr : List Event) (dst : String) : Option Img :=
  (writesOf tr).foldl (fun acc pr => if pr.1 = dst then some pr.2 else acc) none

/-- The sorted eligible-file list `images` of `main`. -/
def images (listing : List String) : List String :=
  List.insertionSort (fun a b => strLe a b = true)
    (listing.filter (fun p => eligible p))

/-- The orchestrator scan/dispatch contract, stated over one run: the
pipeline invocations are exactly the sorted eligible files in order, each
with destination `output_dir / (stem + "_transparent.png")`; the dispatched
list is sorted lexicographically, contains exactly the eligible children,
has no duplicates (each file invoked exactly once); and a non-eligible
child is never passed to the pipeline. -/
def ScanSpec (w : World) (center : Bool) (output_dir : String)
    (listing : List String) : Prop :=
  invocationsOf (mainRun w center output_dir listing)
      = (images listing).map
          (fun p => (p, output_dir ++ "/" ++ (stemOf p ++ "_transparent.png")))
  ∧ List.Sorted (fun a b => strLe a b = true) (images listing)
  ∧ (∀ p, p ∈ images listing ↔ p ∈ listing ∧ eligible p = true)
  ∧ (images listing).Nodup
  ∧ (∀ p ∈ images listing, (images listing).count p = 1)
  ∧ (∀ p ∈ listing, eligible p = false →
      ∀ d, (p, d) ∉ invocationsOf (mainRun w center output_dir listing))

/-- A world whose collaborators always succeed, for concrete batch runs. -/
def exWorldOk : World :=
  ⟨fun _ => .ok (Img.mk 1 1 4 (fun _ _ _ => 1)), fun _ i => i, fun _ _ => .ok true⟩

/-- Failure isolation, stated over one run: every sorted eligible file is
still invoked, in order, with its derived destination, and the warning list
is exactly one entry carrying file `k`'s name and the error message. -/
def IsolatedSpec (w : World) (center : Bool) (od : String)
    (listing : List String) (k e : String) : Prop :=
  invocationsOf (mainRun w center od listing)
      = (images listing).map (fun p => (p, out_path od p))
  ∧ warningsOf (mainRun w center od listing) = [(k, e)]

/-- A world whose decode (read + rembg + imdecode) raises on `a.jpg` only. -/
def exWorldDecodeFail : World :=
  ⟨fun s => if s = "a.jpg" then .error "boom" else .ok (Img.mk 1 1 4 (fun _ _ _ => 1)),
    fun _ i => i, fun _ _ => .ok true⟩

/-- A world where the decode succeeds but the destination cannot be
written: `cv2.imwrite` completes and returns `False` (its documented
behavior when it cannot create or write the file) without raising. -/
def exWorldImwriteFalse : World :=
  ⟨fun _ => .ok (Img.mk 1 1 4 (fun _ _ _ => 1)), fun _ i => i, fun _ _ => .ok false⟩

/-- A world whose write step raises (e.g. `mkdir` permission error). -/
def exWorldWriteRaise : World :=
  ⟨fun _ => .ok (Img.mk 1 1 4 (fun _ _ _ => 1)), fun _ i => i,
    fun _ _ => .error "Permission denied"⟩

/-- The colliding-stems contract over one run with two eligible files of
equal stem: both derive the identical destination, the run emits no warning
at all, and the final content of that destination is the processed output
of the lexicographically later file (`n2`) — the earlier output was
overwritten. -/
def CollisionSpec (w : World) (center : Bool) (od : String)
    (listing : List String) (n1 n2 : String) (i2 : Img) : Prop :=
  out_path od n1 = out_path od n2
  ∧ warningsOf (mainRun w center od listing) = []
  ∧ finalFile (mainRun w center od listing) (out_path od n1)
      = some (transformed w center i2)

/-- A world decoding `a.jpg` and `a.png` to distinct buffers, writes
always succeeding. -/
def exWorldCollide : World :=
  ⟨fun s => if s = "a.jpg" then .ok (Img.mk 1 1 4 (fun _ _ _ => 1))
    else .ok (Img.mk 1 1 4 (fun _ _ _ => 2)),
    fun _ i => i, fun _ _ => .ok true⟩

lemma clamp255_le (z : ℤ) : clamp255 z ≤ 255 := by
  unfold clamp255
  omega

/-- **C3.** For every 3-channel 8-bit buffer, the Sharpener returns a
3-channel buffer of the same dimensions where each output channel value is
`strength·original + (1 − strength)·blurred` (strength `1.5`, blurred the
output of the Gaussian-blur collaborator at sigma `3.0`), rounded and
clamped to the 8-bit range, so no output value falls outside `[0, 255]`. -/
theorem unsharp_mask_spec (gaussianBlur : ℚ → Img → Img) (img : Img) (h3 : img.C = 3) :
    (unsharp_mask gaussianBlur img (3/2) 3).H = img.H
    ∧ (unsharp_mask gaussianBlur img (3/2) 3).W = img.W
    ∧ (unsharp_mask gaussianBlur img (3/2) 3).C = 3
    ∧ ∀ y x c, SharpenedCell gaussianBlur img y x c := by
  refine ⟨rfl, rfl, h3, fun y x c => ⟨?_, clamp255_le _⟩⟩
  show clamp255 (cvRound ((3/2) * (img.data y x c : ℚ)
      + (-(3/2 - 1)) * ((gaussianBlur 3 img).data y x c : ℚ) + 0)) = _
  norm_num

/-- Witness for C3 at a concrete 1×1 3-channel buffer and the identity
standing in for the blur collaborator. -/
theorem unsharp_mask_spec_witness :
    (Img.mk 1 1 3 (fun _ _ _ => 7)).C = 3
    ∧ ((unsharp_mask (fun _ i => i) (Img.mk 1 1 3 (fun _ _ _ => 7)) (3/2) 3).H
          = (Img.mk 1 1 3 (fun _ _ _ => 7)).H
      ∧ (unsharp_mask (fun _ i => i) (Img.mk 1 1 3 (fun _ _ _ => 7)) (3/2) 3).W
          = (Img.mk 1 1 3 (fun _ _ _ => 7)).W
      ∧ (unsharp_mask (fun _ i => i) (Img.mk 1 1 3 (fun _ _ _ => 7)) (3/2) 3).C = 3
      ∧ ∀ y x c, SharpenedCell (fun _ i => i) (Img.mk 1 1 3 (fun _ _ _ => 7)) y x c) :=
  ⟨rfl, unsharp_mask_spec (fun _ i => i) (Img.mk 1 1 3 (fun _ _ _ => 7)) rfl⟩

/-- **C7.** The sharpening stage of the Single-Image Pipeline preserves the
alpha plane exactly: only the color channels pass through the Sharpener. -/
theorem sharpen_stage_alpha (gaussianBlur : ℚ → Img → Img) (img : Img) (h4 : img.C = 4) :
    (sharpen_stage gaussianBlur img).H = img.H
    ∧ (sharpen_stage gaussianBlur img).W = img.W
    ∧ (sharpen_stage gaussianBlur img).C = 4
    ∧ ∀ y x, (sharpen_stage gaussianBlur img).data y x 3 = img.data y x 3 := by
  refine ⟨rfl, rfl, rfl, fun y x => ?_⟩
  simp [sharpen_stage]

/-- Witness for C7 at a concrete 1×1 4-channel buffer. -/
theorem sharpen_stage_alpha_witness :
    (Img.mk 1 1 4 (fun _ _ c => c)).C = 4
    ∧ ((sharpen_stage (fun _ i => i) (Img.mk 1 1 4 (fun _ _ c => c))).H
          = (Img.mk 1 1 4 (fun _ _ c => c)).H
      ∧ (sharpen_stage (fun _ i => i) (Img.mk 1 1 4 (fun _ _ c => c))).W
          = (Img.mk 1 1 4 (fun _ _ c => c)).W
      ∧ (sharpen_stage (fun _ i => i) (Img.mk 1 1 4 (fun _ _ c => c))).C = 4
      ∧ ∀ y x, (sharpen_stage (fun _ i => i) (Img.mk 1 1 4 (fun _ _ c => c))).data y x 3
          = (Img.mk 1 1 4 (fun _ _ c => c)).data y x 3) :=
  ⟨rfl, sharpen_stage_alpha (fun _ i => i) (Img.mk 1 1 4 (fun _ _ c => c)) rfl⟩

/-- **C5.** The Alpha Normalizer passes a 4-channel buffer through unchanged,
and turns a 3-channel buffer into a 4-channel buffer of the same height and
width whose first three channels are the input's and whose alpha plane is
uniformly 255. -/
theorem ensure_alpha_spec (img : Img) :
    (img.C = 4 → ensure_alpha img = img)
    ∧ (img.C = 3 →
        (ensure_alpha img).H = img.H ∧ (ensure_alpha img).W = img.W
        ∧ (ensure_alpha img).C = 4
        ∧ (∀ y x c, c < 3 → (ensure_alpha img).data y x c = img.data y x c)
        ∧ (∀ y x, (ensure_alpha img).data y x 3 = 255)) := by
  constructor
  · intro h4
    unfold ensure_alpha
    rw [if_neg (by omega)]
  · intro h3
    unfold ensure_alpha
    rw [if_pos h3]
    refine ⟨rfl, rfl, rfl, fun y x c hc => ?_, fun y x => ?_⟩
    · simp only [if_pos hc]
    · norm_num

/-- Witness for C5: a 4-channel buffer passes through unchanged, and a
3-channel buffer gains a uniform 255 alpha plane. -/
theorem ensure_alpha_spec_witness :
    ((Img.mk 2 2 4 (fun _ _ _ => 9)).C = 4
      ∧ ensure_alpha (Img.mk 2 2 4 (fun _ _ _ => 9)) = Img.mk 2 2 4 (fun _ _ _ => 9))
    ∧ ((Img.mk 2 2 3 (fun _ _ _ => 9)).C = 3
      ∧ (ensure_alpha (Img.mk 2 2 3 (fun _ _ _ => 9))).C = 4
      ∧ ∀ y x, (ensure_alpha (Img.mk 2 2 3 (fun _ _ _ => 9))).data y x 3 = 255) :=
  ⟨⟨rfl, (ensure_alpha_spec (Img.mk 2 2 4 (fun _ _ _ => 9))).1 rfl⟩,
    ⟨rfl, ((ensure_alpha_spec (Img.mk 2 2 3 (fun _ _ _ => 9))).2 rfl).2.2.1,
      ((ensure_alpha_spec (Img.mk 2 2 3 (fun _ _ _ => 9))).2 rfl).2.2.2.2⟩⟩

lemma minL_mem : ∀ {l : List Nat}, l ≠ [] → minL l ∈ l
  | [], h => absurd rfl h
  | [a], _ => by simp [minL]
  | a :: b :: t, _ => by
    show min a (minL (b :: t)) ∈ a :: b :: t
    rcases le_total a (minL (b :: t)) with h1 | h1
    · rw [min_eq_left h1]; exact List.mem_cons_self a _
    · rw [min_eq_right h1]
      exact List.mem_cons_of_mem a (minL_mem (by simp))

lemma minL_le : ∀ {l : List Nat} {a : Nat}, a ∈ l → minL l ≤ a
  | [], _, h => absurd h (by simp)
  | [b], a, h => by
    simp at h
    simp [minL, h]
  | b :: c :: t, a, h => by
    show min b (minL (c :: t)) ≤ a
    rcases List.mem_cons.mp h with h1 | h1
    · subst h1; exact min_le_left _ _
    · exact le_trans (min_le_right _ _) (minL_le h1)

lemma maxL_mem : ∀ {l : List Nat}, l ≠ [] → maxL l ∈ l
  | [], h => absurd rfl h
  | [a], _ => by simp [maxL]
  | a :: b :: t, _ => by
    show max a (maxL (b :: t)) ∈ a :: b :: t
    rcases le_total a (maxL (b :: t)) with h1 | h1
    · rw [max_eq_right h1]
      exact List.mem_cons_of_mem a (maxL_mem (by simp))
    · rw [max_eq_left h1]; exact List.mem_cons_self a _

lemma le_maxL : ∀ {l : List Nat} {a : Nat}, a ∈ l → a ≤ maxL l
  | [], _, h => absurd h (by simp)
  | [b], a, h => by
    simp at h
    simp [maxL, h]
  | b :: c :: t, a, h => by
    show a ≤ max b (maxL (c :: t))
    rcases List.mem_cons.mp h with h1 | h1
    · subst h1; exact le_max_left _ _
    · exact le_trans (le_maxL h1) (le_max_right _ _)

lemma mem_ysList {img : Img} {y : Nat} :
    y ∈ ysList img ↔ y < img.H ∧ ∃ x, x < img.W ∧ 0 < img.data y x 3 := by
  simp [ysList, rowHasAlpha, List.mem_filter, List.any_eq_true]

lemma mem_xsList {img : Img} {x : Nat} :
    x ∈ xsList img ↔ x < img.W ∧ ∃ y, y < img.H ∧ 0 < img.data y x 3 := by
  simp [xsList, colHasAlpha, List.mem_filter, List.any_eq_true]

lemma anyAlpha_iff {img : Img} :
    anyAlpha img = true ↔ ∃ y, y < img.H ∧ ∃ x, x < img.W ∧ 0 < img.data y x 3 := by
  simp [anyAlpha, rowHasAlpha, List.any_eq_true]

lemma anyAlpha_eq_false {img : Img}
    (h : ∀ y, y < img.H → ∀ x, x < img.W → img.data y x 3 = 0) :
    ¬ anyAlpha img = true := by
  rw [anyAlpha_iff]
  rintro ⟨y, hy, x, hx, hpos⟩
  have := h y hy x hx
  omega

/-- **C6.** For every 4-channel buffer whose alpha plane is all zero, the
Canvas Centerer returns a buffer identical to its input: a no-op, not an
error. -/
theorem center_object_noop (img : Img)
    (h : ∀ y, y < img.H → ∀ x, x < img.W → img.data y x 3 = 0) :
    center_object img = img := by
  rw [center_object, if_neg (anyAlpha_eq_false h)]

/-- Witness for C6 at a concrete 2×2 buffer with color but zero alpha. -/
theorem center_object_noop_witness :
    (∀ y, y < (Img.mk 2 2 4 (fun _ _ c => if c < 3 then 10 else 0)).H →
      ∀ x, x < (Img.mk 2 2 4 (fun _ _ c => if c < 3 then 10 else 0)).W →
        (Img.mk 2 2 4 (fun _ _ c => if c < 3 then 10 else 0)).data y x 3 = 0)
    ∧ center_object (Img.mk 2 2 4 (fun _ _ c => if c < 3 then 10 else 0))
        = Img.mk 2 2 4 (fun _ _ c => if c < 3 then 10 else 0) :=
  ⟨fun _ _ _ _ => rfl,
    center_object_noop (Img.mk 2 2 4 (fun _ _ c => if c < 3 then 10 else 0))
      (fun _ _ _ _ => rfl)⟩

lemma ysList_ne_nil {img : Img} (ha : anyAlpha img = true) : ysList img ≠ [] := by
  rw [anyAlpha_iff] at ha
  obtain ⟨y, hy, x, hx, hpos⟩ := ha
  exact List.ne_nil_of_mem (mem_ysList.mpr ⟨hy, x, hx, hpos⟩)

lemma xsList_ne_nil {img : Img} (ha : anyAlpha img = true) : xsList img ≠ [] := by
  rw [anyAlpha_iff] at ha
  obtain ⟨y, hy, x, hx, hpos⟩ := ha
  exact List.ne_nil_of_mem (mem_xsList.mpr ⟨hx, y, hy, hpos⟩)

/-- The `y_min/y_max/x_min/x_max` computed by `center_object` form the
inclusive bounding box of the positive-alpha pixels. -/
lemma bbox_isBoundingBox {img : Img} (ha : anyAlpha img = true) :
    IsBoundingBox img (y_min img) (y_max img) (x_min img) (x_max img) := by
  have hymem : y_min img ∈ ysList img := minL_mem (ysList_ne_nil ha)
  have hyMmem : y_max img ∈ ysList img := maxL_mem (ysList_ne_nil ha)
  have hxmem : x_min img ∈ xsList img := minL_mem (xsList_ne_nil ha)
  have hxMmem : x_max img ∈ xsList img := maxL_mem (xsList_ne_nil ha)
  refine ⟨?_, mem_ysList.mp hymem, mem_ysList.mp hyMmem,
    mem_xsList.mp hxmem, mem_xsList.mp hxMmem⟩
  intro y x hy hx hpos
  have h1 : y ∈ ysList img := mem_ysList.mpr ⟨hy, x, hx, hpos⟩
  have h2 : x ∈ xsList img := mem_xsList.mpr ⟨hx, y, hy, hpos⟩
  exact ⟨minL_le h1, le_maxL h1, minL_le h2, le_maxL h2⟩

/-- **C2.** For every 4-channel buffer with at least one positive-alpha
pixel, the Canvas Centerer keeps H, W and the 4 channels, and produces a
buffer that is zero everywhere except the inclusive bounding-box region of
the positive-alpha pixels (height `h = y1+1-y0`, width `w = x1+1-x0`),
pasted with top-left corner at `offset_y = (H-h)/2`, `offset_x = (W-w)/2`
(floor division). -/
theorem center_object_spec (img : Img) (h4 : img.C = 4) (ha : anyAlpha img = true) :
    (center_object img).H = img.H ∧ (center_object img).W = img.W
    ∧ (center_object img).C = 4
    ∧ ∃ y0 y1 x0 x1, IsBoundingBox img y0 y1 x0 x1
        ∧ ∀ y x c,
            (center_object img).data y x c =
              if (img.H - (y1 + 1 - y0)) / 2 ≤ y
                  ∧ y < (img.H - (y1 + 1 - y0)) / 2 + (y1 + 1 - y0)
                  ∧ (img.W - (x1 + 1 - x0)) / 2 ≤ x
                  ∧ x < (img.W - (x1 + 1 - x0)) / 2 + (x1 + 1 - x0) then
                img.data (y - (img.H - (y1 + 1 - y0)) / 2 + y0)
                  (x - (img.W - (x1 + 1 - x0)) / 2 + x0) c
              else 0 := by
  have hc : center_object img = canvas img := by rw [center_object, if_pos ha]
  rw [hc]
  exact ⟨rfl, rfl, h4, y_min img, y_max img, x_min img, x_max img,
    bbox_isBoundingBox ha, fun y x c => rfl⟩

/-- Witness for C2 at a concrete 2×2 buffer with one positive-alpha pixel. -/
theorem center_object_spec_witness :
    (Img.mk 2 2 4 (fun y x c => if y = 0 ∧ x = 0 ∧ c = 3 then 5 else 0)).C = 4
    ∧ anyAlpha (Img.mk 2 2 4 (fun y x c => if y = 0 ∧ x = 0 ∧ c = 3 then 5 else 0)) = true
    ∧ ((center_object (Img.mk 2 2 4 (fun y x c => if y = 0 ∧ x = 0 ∧ c = 3 then 5 else 0))).H
        = (Img.mk 2 2 4 (fun y x c => if y = 0 ∧ x = 0 ∧ c = 3 then 5 else 0)).H
      ∧ (center_object (Img.mk 2 2 4 (fun y x c => if y = 0 ∧ x = 0 ∧ c = 3 then 5 else 0))).W
        = (Img.mk 2 2 4 (fun y x c => if y = 0 ∧ x = 0 ∧ c = 3 then 5 else 0)).W
      ∧ (center_object (Img.mk 2 2 4 (fun y x c => if y = 0 ∧ x = 0 ∧ c = 3 then 5 else 0))).C
        = 4
      ∧ ∃ y0 y1 x0 x1,
          IsBoundingBox (Img.mk 2 2 4 (fun y x c => if y = 0 ∧ x = 0 ∧ c = 3 then 5 else 0))
            y0 y1 x0 x1
          ∧ ∀ y x c,
              (center_object
                  (Img.mk 2 2 4 (fun y x c => if y = 0 ∧ x = 0 ∧ c = 3 then 5 else 0))).data
                  y x c =
                if (2 - (y1 + 1 - y0)) / 2 ≤ y
                    ∧ y < (2 - (y1 + 1 - y0)) / 2 + (y1 + 1 - y0)
                    ∧ (2 - (x1 + 1 - x0)) / 2 ≤ x
                    ∧ x < (2 - (x1 + 1 - x0)) / 2 + (x1 + 1 - x0) then
                  (Img.mk 2 2 4 (fun y x c => if y = 0 ∧ x = 0 ∧ c = 3 then 5 else 0)).data
                    (y - (2 - (y1 + 1 - y0)) / 2 + y0) (x - (2 - (x1 + 1 - x0)) / 2 + x0) c
                else 0) :=
  ⟨rfl, by decide,
    center_object_spec (Img.mk 2 2 4 (fun y x c => if y = 0 ∧ x = 0 ∧ c = 3 then 5 else 0))
      rfl (by decide)⟩

lemma centering_bounds {img : Img} (ha : anyAlpha img = true) :
    y_min img ≤ y_max img ∧ y_max img < img.H
    ∧ x_min img ≤ x_max img ∧ x_max img < img.W
    ∧ offset_y img + roiH img ≤ img.H ∧ 1 ≤ roiH img
    ∧ offset_x img + roiW img ≤ img.W ∧ 1 ≤ roiW img := by
  have h1 : y_min img ≤ y_max img := minL_le (maxL_mem (ysList_ne_nil ha))
  have h2 : y_max img < img.H := (mem_ysList.mp (maxL_mem (ysList_ne_nil ha))).1
  have h3 : x_min img ≤ x_max img := minL_le (maxL_mem (xsList_ne_nil ha))
  have h4 : x_max img < img.W := (mem_xsList.mp (maxL_mem (xsList_ne_nil ha))).1
  unfold offset_y offset_x roiH roiW
  omega

lemma row_translate {img : Img} (ha : anyAlpha img = true) {y' : Nat}
    (hy' : y' ∈ ysList img) :
    y' - y_min img + offset_y img ∈ ysList (canvas img) := by
  obtain ⟨hyH, x', hx'W, hpos⟩ := mem_ysList.mp hy'
  have hb := centering_bounds ha
  have hbb := (bbox_isBoundingBox ha).1 y' x' hyH hx'W hpos
  apply mem_ysList.mpr
  have hreg : offset_y img ≤ y' - y_min img + offset_y img
      ∧ y' - y_min img + offset_y img < offset_y img + roiH img
      ∧ offset_x img ≤ x' - x_min img + offset_x img
      ∧ x' - x_min img + offset_x img < offset_x img + roiW img := by
    unfold roiH roiW at *
    omega
  refine ⟨?_, x' - x_min img + offset_x img, ?_, ?_⟩
  · show y' - y_min img + offset_y img < img.H
    omega
  · show x' - x_min img + offset_x img < img.W
    omega
  · have hY : y' - y_min img + offset_y img - offset_y img + y_min img = y' := by omega
    have hX : x' - x_min img + offset_x img - offset_x img + x_min img = x' := by omega
    show 0 < (canvas img).data (y' - y_min img + offset_y img)
        (x' - x_min img + offset_x img) 3
    simp only [canvas]
    rw [if_pos hreg, hY, hX]
    exact hpos

lemma col_translate {img : Img} (ha : anyAlpha img = true) {x' : Nat}
    (hx' : x' ∈ xsList img) :
    x' - x_min img + offset_x img ∈ xsList (canvas img) := by
  obtain ⟨hxW, y', hy'H, hpos⟩ := mem_xsList.mp hx'
  have hb := centering_bounds ha
  have hbb := (bbox_isBoundingBox ha).1 y' x' hy'H hxW hpos
  apply mem_xsList.mpr
  have hreg : offset_y img ≤ y' - y_min img + offset_y img
      ∧ y' - y_min img + offset_y img < offset_y img + roiH img
      ∧ offset_x img ≤ x' - x_min img + offset_x img
      ∧ x' - x_min img + offset_x img < offset_x img + roiW img := by
    unfold roiH roiW at *
    omega
  refine ⟨?_, y' - y_min img + offset_y img, ?_, ?_⟩
  · show x' - x_min img + offset_x img < img.W
    omega
  · show y' - y_min img + offset_y img < img.H
    omega
  · have hY : y' - y_min img + offset_y img - offset_y img + y_min img = y' := by omega
    have hX : x' - x_min img + offset_x img - offset_x img + x_min img = x' := by omega
    show 0 < (canvas img).data (y' - y_min img + offset_y img)
        (x' - x_min img + offset_x img) 3
    simp only [canvas]
    rw [if_pos hreg, hY, hX]
    exact hpos

lemma canvas_row_bound {img : Img} {y : Nat} (hy : y ∈ ysList (canvas img)) :
    offset_y img ≤ y ∧ y < offset_y img + roiH img := by
  obtain ⟨-, x, -, hpos⟩ := mem_ysList.mp hy
  by_cases hreg : offset_y img ≤ y ∧ y < offset_y img + roiH img
      ∧ offset_x img ≤ x ∧ x < offset_x img + roiW img
  · exact ⟨hreg.1, hreg.2.1⟩
  · exfalso
    have h0 : (canvas img).data y x 3 = 0 := by
      simp only [canvas]
      rw [if_neg hreg]
    omega

lemma canvas_col_bound {img : Img} {x : Nat} (hx : x ∈ xsList (canvas img)) :
    offset_x img ≤ x ∧ x < offset_x img + roiW img := by
  obtain ⟨-, y, -, hpos⟩ := mem_xsList.mp hx
  by_cases hreg : offset_y img ≤ y ∧ y < offset_y img + roiH img
      ∧ offset_x img ≤ x ∧ x < offset_x img + roiW img
  · exact ⟨hreg.2.2.1, hreg.2.2.2⟩
  · exfalso
    have h0 : (canvas img).data y x 3 = 0 := by
      simp only [canvas]
      rw [if_neg hreg]
    omega

lemma anyAlpha_canvas {img : Img} (ha : anyAlpha img = true) :
    anyAlpha (canvas img) = true := by
  have hmem := row_translate ha (minL_mem (ysList_ne_nil ha))
  obtain ⟨hH, x, hx, hpos⟩ := mem_ysList.mp hmem
  exact anyAlpha_iff.mpr ⟨_, hH, x, hx, hpos⟩

lemma y_min_canvas {img : Img} (ha : anyAlpha img = true) :
    y_min (canvas img) = offset_y img := by
  have hne : ysList (canvas img) ≠ [] := ysList_ne_nil (anyAlpha_canvas ha)
  have hmemc : offset_y img ∈ ysList (canvas img) := by
    have h := row_translate ha
      (show y_min img ∈ ysList img from minL_mem (ysList_ne_nil ha))
    rwa [Nat.sub_self, Nat.zero_add] at h
  have h1 : y_min (canvas img) ≤ offset_y img := minL_le hmemc
  have h2 : offset_y img ≤ y_min (canvas img) := (canvas_row_bound (minL_mem hne)).1
  omega

lemma x_min_canvas {img : Img} (ha : anyAlpha img = true) :
    x_min (canvas img) = offset_x img := by
  have hne : xsList (canvas img) ≠ [] := xsList_ne_nil (anyAlpha_canvas ha)
  have hmemc : offset_x img ∈ xsList (canvas img) := by
    have h := col_translate ha
      (show x_min img ∈ xsList img from minL_mem (xsList_ne_nil ha))
    rwa [Nat.sub_self, Nat.zero_add] at h
  have h1 : x_min (canvas img) ≤ offset_x img := minL_le hmemc
  have h2 : offset_x img ≤ x_min (canvas img) := (canvas_col_bound (minL_mem hne)).1
  omega

lemma y_max_canvas {img : Img} (ha : anyAlpha img = true) :
    y_max (canvas img) = offset_y img + (y_max img - y_min img) := by
  have hne : ysList (canvas img) ≠ [] := ysList_ne_nil (anyAlpha_canvas ha)
  have hb := centering_bounds ha
  have he : y_max (canvas img) = maxL (ysList (canvas img)) := rfl
  have hr : roiH img = y_max img + 1 - y_min img := rfl
  have h1 : y_max img - y_min img + offset_y img ≤ maxL (ysList (canvas img)) :=
    le_maxL (row_translate ha
      (show y_max img ∈ ysList img from maxL_mem (ysList_ne_nil ha)))
  have h2 := canvas_row_bound (maxL_mem hne)
  omega

lemma x_max_canvas {img : Img} (ha : anyAlpha img = true) :
    x_max (canvas img) = offset_x img + (x_max img - x_min img) := by
  have hne : xsList (canvas img) ≠ [] := xsList_ne_nil (anyAlpha_canvas ha)
  have hb := centering_bounds ha
  have he : x_max (canvas img) = maxL (xsList (canvas img)) := rfl
  have hr : roiW img = x_max img + 1 - x_min img := rfl
  have h1 : x_max img - x_min img + offset_x img ≤ maxL (xsList (canvas img)) :=
    le_maxL (col_translate ha
      (show x_max img ∈ xsList img from maxL_mem (xsList_ne_nil ha)))
  have h2 := canvas_col_bound (maxL_mem hne)
  omega

lemma roiH_canvas {img : Img} (ha : anyAlpha img = true) :
    roiH (canvas img) = roiH img := by
  have hb := centering_bounds ha
  unfold roiH
  rw [y_min_canvas ha, y_max_canvas ha]
  unfold roiH at hb
  omega

lemma roiW_canvas {img : Img} (ha : anyAlpha img = true) :
    roiW (canvas img) = roiW img := by
  have hb := centering_bounds ha
  unfold roiW
  rw [x_min_canvas ha, x_max_canvas ha]
  unfold roiW at hb
  omega

lemma offset_y_canvas {img : Img} (ha : anyAlpha img = true) :
    offset_y (canvas img) = offset_y img := by
  unfold offset_y
  rw [roiH_canvas ha]
  exact rfl

lemma offset_x_canvas {img : Img} (ha : anyAlpha img = true) :
    offset_x (canvas img) = offset_x img := by
  unfold offset_x
  rw [roiW_canvas ha]
  exact rfl

/-- **C4.** Applying the Canvas Centerer twice yields the same buffer as
applying it once: the output of one application is a fixed point. -/
theorem center_object_idem (img : Img) (h4 : img.C = 4) :
    center_object (center_object img) = center_object img := by
  by_cases ha : anyAlpha img = true
  · have hc : center_object img = canvas img := by rw [center_object, if_pos ha]
    rw [hc, center_object, if_pos (anyAlpha_canvas ha)]
    refine Img.ext rfl rfl rfl ?_
    funext y x c
    show (if offset_y (canvas img) ≤ y ∧ y < offset_y (canvas img) + roiH (canvas img)
        ∧ offset_x (canvas img) ≤ x ∧ x < offset_x (canvas img) + roiW (canvas img) then
          (canvas img).data (y - offset_y (canvas img) + y_min (canvas img))
            (x - offset_x (canvas img) + x_min (canvas img)) c
        else 0) = (canvas img).data y x c
    rw [offset_y_canvas ha, offset_x_canvas ha, roiH_canvas ha, roiW_canvas ha,
      y_min_canvas ha, x_min_canvas ha]
    by_cases hreg : offset_y img ≤ y ∧ y < offset_y img + roiH img
        ∧ offset_x img ≤ x ∧ x < offset_x img + roiW img
    · rw [if_pos hreg, Nat.sub_add_cancel hreg.1, Nat.sub_add_cancel hreg.2.2.1]
    · rw [if_neg hreg]
      have h0 : (canvas img).data y x c = 0 := by
        simp only [canvas]
        rw [if_neg hreg]
      rw [h0]
  · have hc : center_object img = img := by rw [center_object, if_neg ha]
    rw [hc]
    exact hc

/-- Witness for C4 at a concrete 3×3 buffer with one positive-alpha pixel in
a corner. -/
theorem center_object_idem_witness :
    (Img.mk 3 3 4 (fun y x c => if y = 2 ∧ x = 2 ∧ c = 3 then 7 else 0)).C = 4
    ∧ center_object (center_object
        (Img.mk 3 3 4 (fun y x c => if y = 2 ∧ x = 2 ∧ c = 3 then 7 else 0)))
      = center_object (Img.mk 3 3 4 (fun y x c => if y = 2 ∧ x = 2 ∧ c = 3 then 7 else 0)) :=
  ⟨rfl, center_object_idem
    (Img.mk 3 3 4 (fun y x c => if y = 2 ∧ x = 2 ∧ c = 3 then 7 else 0)) rfl⟩

lemma lexLe_total : ∀ s t : List Char, lexLe s t = true ∨ lexLe t s = true
  | [], _ => Or.inl rfl
  | _ :: _, [] => Or.inr rfl
  | a :: s1, b :: t1 => by
    show (if a.toNat < b.toNat then true else if b.toNat < a.toNat then false
        else lexLe s1 t1) = true
      ∨ (if b.toNat < a.toNat then true else if a.toNat < b.toNat then false
        else lexLe t1 s1) = true
    rcases Nat.lt_trichotomy a.toNat b.toNat with h | h | h
    · left
      rw [if_pos h]
    · rw [if_neg (by omega), if_neg (by omega), if_neg (by omega), if_neg (by omega)]
      exact lexLe_total s1 t1
    · right
      rw [if_pos h]

lemma lexLe_of_ite {a b : Char} {s1 t1 : List Char}
    (h : (if a.toNat < b.toNat then true else if b.toNat < a.toNat then false
        else lexLe s1 t1) = true) :
    a.toNat < b.toNat ∨ (a.toNat = b.toNat ∧ lexLe s1 t1 = true) := by
  by_cases hab : a.toNat < b.toNat
  · exact Or.inl hab
  · by_cases hba : b.toNat < a.toNat
    · rw [if_neg hab, if_pos hba] at h
      exact absurd h (by simp)
    · rw [if_neg hab, if_neg hba] at h
      exact Or.inr ⟨by omega, h⟩

lemma lexLe_trans : ∀ {s t u : List Char},
    lexLe s t = true → lexLe t u = true → lexLe s u = true
  | [], _, _, _, _ => rfl
  | _ :: _, [], _, h1, _ => by simp [lexLe] at h1
  | _ :: _, _ :: _, [], _, h2 => by simp [lexLe] at h2
  | a :: s1, b :: t1, c :: u1, h1, h2 => by
    show (if a.toNat < c.toNat then true else if c.toNat < a.toNat then false
        else lexLe s1 u1) = true
    rcases lexLe_of_ite h1 with hab | ⟨hab, hst⟩
    · rcases lexLe_of_ite h2 with hbc | ⟨hbc, -⟩
      · rw [if_pos (by omega)]
      · rw [if_pos (by omega)]
    · rcases lexLe_of_ite h2 with hbc | ⟨hbc, htu⟩
      · rw [if_pos (by omega)]
      · rw [if_neg (by omega), if_neg (by omega)]
        exact lexLe_trans hst htu

instance : IsTotal String (fun a b => strLe a b = true) :=
  ⟨fun a b => lexLe_total a.toList b.toList⟩

instance : IsTrans String (fun a b => strLe a b = true) :=
  ⟨fun _ _ _ h1 h2 => lexLe_trans h1 h2⟩

lemma mainRun_eq (w : World) (center : Bool) (od : String) (listing : List String) :
    mainRun w center od listing = runBatch w center od (images listing) := rfl

lemma invocationsOf_cons_invoked (s d : String) (tr : List Event) :
    invocationsOf (Event.invoked s d :: tr) = (s, d) :: invocationsOf tr := by
  simp [invocationsOf]

lemma invocationsOf_cons_wrote (d : String) (img : Img) (tr : List Event) :
    invocationsOf (Event.wrote d img :: tr) = invocationsOf tr := by
  simp [invocationsOf]

lemma invocationsOf_cons_warned (n m : String) (tr : List Event) :
    invocationsOf (Event.warned n m :: tr) = invocationsOf tr := by
  simp [invocationsOf]

lemma invocationsOf_append (l1 l2 : List Event) :
    invocationsOf (l1 ++ l2) = invocationsOf l1 ++ invocationsOf l2 := by
  simp [invocationsOf]

lemma warningsOf_cons_invoked (s d : String) (tr : List Event) :
    warningsOf (Event.invoked s d :: tr) = warningsOf tr := by
  simp [warningsOf]

lemma warningsOf_cons_wrote (d : String) (img : Img) (tr : List Event) :
    warningsOf (Event.wrote d img :: tr) = warningsOf tr := by
  simp [warningsOf]

lemma warningsOf_cons_warned (n m : String) (tr : List Event) :
    warningsOf (Event.warned n m :: tr) = (n, m) :: warningsOf tr := by
  simp [warningsOf]

lemma warningsOf_append (l1 l2 : List Event) :
    warningsOf (l1 ++ l2) = warningsOf l1 ++ warningsOf l2 := by
  simp [warningsOf]

lemma writesOf_cons_invoked (s d : String) (tr : List Event) :
    writesOf (Event.invoked s d :: tr) = writesOf tr := by
  simp [writesOf]

lemma writesOf_cons_wrote (d : String) (img : Img) (tr : List Event) :
    writesOf (Event.wrote d img :: tr) = (d, img) :: writesOf tr := by
  simp [writesOf]

lemma writesOf_cons_warned (n m : String) (tr : List Event) :
    writesOf (Event.warned n m :: tr) = writesOf tr := by
  simp [writesOf]

lemma writesOf_append (l1 l2 : List Event) :
    writesOf (l1 ++ l2) = writesOf l1 ++ writesOf l2 := by
  simp [writesOf]

lemma invocationsOf_wrotes (ws : List (String × Img)) :
    invocationsOf (ws.map (fun pr => Event.wrote pr.1 pr.2)) = [] := by
  induction ws with
  | nil => rfl
  | cons a t ih => simpa [invocationsOf_cons_wrote] using ih

lemma warningsOf_wrotes (ws : List (String × Img)) :
    warningsOf (ws.map (fun pr => Event.wrote pr.1 pr.2)) = [] := by
  induction ws with
  | nil => rfl
  | cons a t ih => simpa [warningsOf_cons_wrote] using ih

lemma writesOf_wrotes (ws : List (String × Img)) :
    writesOf (ws.map (fun pr => Event.wrote pr.1 pr.2)) = ws := by
  induction ws with
  | nil => rfl
  | cons a t ih => simp [writesOf_cons_wrote, ih]

lemma runBatch_cons_ok {w : World} {center : Bool} {od p : String}
    {ws : List (String × Img)} (t : List String)
    (hp : process_image w center p (out_path od p) = (.ok (), ws)) :
    runBatch w center od (p :: t)
      = (Event.invoked p (out_path od p) :: ws.map (fun pr => Event.wrote pr.1 pr.2))
        ++ runBatch w center od t := by
  rw [runBatch, hp]

lemma runBatch_cons_err {w : World} {center : Bool} {od p e : String}
    {ws : List (String × Img)} (t : List String)
    (hp : process_image w center p (out_path od p) = (.error e, ws)) :
    runBatch w center od (p :: t)
      = ((Event.invoked p (out_path od p) :: ws.map (fun pr => Event.wrote pr.1 pr.2))
          ++ [Event.warned p e])
        ++ runBatch w center od t := by
  rw [runBatch, hp]

lemma invocationsOf_runBatch (w : World) (center : Bool) (od : String) :
    ∀ items : List String,
      invocationsOf (runBatch w center od items)
        = items.map (fun p => (p, out_path od p))
  | [] => rfl
  | p :: t => by
    rcases hp : process_image w center p (out_path od p) with ⟨res, ws⟩
    cases res with
    | ok u =>
      cases u
      rw [runBatch_cons_ok t hp, invocationsOf_append, invocationsOf_cons_invoked,
        invocationsOf_wrotes, invocationsOf_runBatch w center od t]
      rfl
    | error e =>
      rw [runBatch_cons_err t hp, invocationsOf_append, invocationsOf_append,
        invocationsOf_cons_invoked, invocationsOf_wrotes,
        invocationsOf_runBatch w center od t]
      rfl

lemma warningsOf_runBatch_ok {w : World} {center : Bool} {od : String} :
    ∀ items : List String,
      (∀ p ∈ items, (process_image w center p (out_path od p)).1 = .ok ()) →
      warningsOf (runBatch w center od items) = []
  | [], _ => rfl
  | p :: t, hok => by
    rcases hp : process_image w center p (out_path od p) with ⟨res, ws⟩
    have h1 := hok p (List.mem_cons_self p t)
    rw [hp] at h1
    cases res with
    | error e => exact absurd h1 (by simp)
    | ok u =>
      cases u
      rw [runBatch_cons_ok t hp, warningsOf_append, warningsOf_cons_invoked,
        warningsOf_wrotes,
        warningsOf_runBatch_ok t (fun q hq => hok q (List.mem_cons_of_mem p hq))]
      rfl

lemma warningsOf_runBatch_one_error {w : World} {center : Bool} {od k e : String} :
    ∀ {items : List String}, items.Nodup → k ∈ items →
      (process_image w center k (out_path od k)).1 = .error e →
      (∀ p ∈ items, p ≠ k → (process_image w center p (out_path od p)).1 = .ok ()) →
      warningsOf (runBatch w center od items) = [(k, e)]
  | [], _, hk, _, _ => absurd hk (by simp)
  | p :: t, hnd, hk, hfail, hok => by
    rw [List.nodup_cons] at hnd
    rcases List.mem_cons.mp hk with rfl | hkt
    · rcases hp : process_image w center k (out_path od k) with ⟨res, ws⟩
      have h1 := hfail
      rw [hp] at h1
      cases res with
      | ok u => exact absurd h1 (by simp)
      | error e2 =>
        have he : e2 = e := by
          simpa using h1
        subst he
        rw [runBatch_cons_err t hp, warningsOf_append, warningsOf_append,
          warningsOf_cons_invoked, warningsOf_wrotes,
          warningsOf_runBatch_ok t (fun q hq => hok q (List.mem_cons_of_mem k hq)
            (fun hqk => hnd.1 (hqk ▸ hq)))]
        rfl
    · have hpk : p ≠ k := fun hpk => hnd.1 (hpk ▸ hkt)
      rcases hp : process_image w center p (out_path od p) with ⟨res, ws⟩
      have h1 := hok p (List.mem_cons_self p t) hpk
      rw [hp] at h1
      cases res with
      | error e2 => exact absurd h1 (by simp)
      | ok u =>
        cases u
        rw [runBatch_cons_ok t hp, warningsOf_append, warningsOf_cons_invoked,
          warningsOf_wrotes,
          warningsOf_runBatch_one_error hnd.2 hkt hfail
            (fun q hq hqk => hok q (List.mem_cons_of_mem p hq) hqk)]
        rfl

lemma process_image_ok_decode {w : World} {center : Bool} {src dst : String} {img : Img}
    (hd : w.decode src = .ok img) :
    process_image w center src dst = writeStep w center dst img := by
  unfold process_image
  rw [hd]

lemma process_image_decode_error {w : World} {center : Bool} {src dst e : String}
    (hd : w.decode src = .error e) :
    process_image w center src dst = (.error e, []) := by
  unfold process_image
  rw [hd]

lemma writeStep_error {w : World} {center : Bool} {dst e : String} {img : Img}
    (hw : w.write dst (transformed w center img) = .error e) :
    writeStep w center dst img = (.error e, []) := by
  unfold writeStep
  rw [hw]

lemma writeStep_ok {w : World} {center : Bool} {dst : String} {img : Img} {b : Bool}
    (hw : w.write dst (transformed w center img) = .ok b) :
    writeStep w center dst img
      = (.ok (), if b then [(dst, transformed w center img)] else []) := by
  unfold writeStep
  rw [hw]

/-- **C9.** The Batch Orchestrator selects exactly the immediate children
whose lower-cased extension is in `{.jpg, .jpeg, .png, .webp, .bmp, .tiff}`,
invokes the Single-Image Pipeline exactly once per selected file in
lexicographic path order with destination `<stem>_transparent.png` under the
output directory, and never passes a file with any other extension. -/
theorem main_scan_spec (w : World) (center : Bool) (output_dir : String)
    (listing : List String) (hnd : listing.Nodup) :
    ScanSpec w center output_dir listing := by
  have hinv : invocationsOf (mainRun w center output_dir listing)
      = (images listing).map (fun p => (p, out_path output_dir p)) := by
    rw [mainRun_eq]
    exact invocationsOf_runBatch w center output_dir (images listing)
  have hmem : ∀ p, p ∈ images listing ↔ p ∈ listing ∧ eligible p = true := by
    intro p
    rw [images, (List.perm_insertionSort _ _).mem_iff, List.mem_filter]
  have hnodup : (images listing).Nodup :=
    (List.perm_insertionSort _ _).symm.nodup (hnd.filter _)
  refine ⟨hinv, List.sorted_insertionSort _ _, hmem, hnodup, ?_, ?_⟩
  · intro p hp
    exact List.count_eq_one_of_mem hnodup hp
  · intro p hp hel d hmem2
    rw [hinv] at hmem2
    obtain ⟨q, hq, heq⟩ := List.mem_map.mp hmem2
    have hqp : q = p := congrArg Prod.fst heq
    have h2 : eligible q = true := ((hmem q).mp hq).2
    rw [hqp, hel] at h2
    exact absurd h2 (by simp)

/-- Witness for C9 on a listing with a case-varied extension and a
non-eligible text file. -/
theorem main_scan_spec_witness :
    (["b.PNG", "notes.txt", "a.jpg"] : List String).Nodup
    ∧ ScanSpec exWorldOk false "output" ["b.PNG", "notes.txt", "a.jpg"] :=
  ⟨by decide, main_scan_spec exWorldOk false "output" ["b.PNG", "notes.txt", "a.jpg"]
    (by decide)⟩

/-- **C1.** When processing of eligible item `k` raises an error and every
other eligible item succeeds, the orchestrator catches the error at the
loop boundary, emits exactly one warning carrying `k`'s filename and the
error message, and still invokes every other item — no later item is
skipped, and the run (a total function here) never propagates the error. -/
theorem batch_error_isolated (w : World) (center : Bool) (od : String)
    (listing : List String) (k e : String) (hnd : listing.Nodup)
    (hk : k ∈ images listing)
    (hfail : (process_image w center k (out_path od k)).1 = .error e)
    (hok : ∀ p ∈ images listing, p ≠ k →
        (process_image w center p (out_path od p)).1 = .ok ()) :
    IsolatedSpec w center od listing k e := by
  have hnodup : (images listing).Nodup :=
    (List.perm_insertionSort _ _).symm.nodup (hnd.filter _)
  constructor
  · rw [mainRun_eq]
    exact invocationsOf_runBatch w center od (images listing)
  · rw [mainRun_eq]
    exact warningsOf_runBatch_one_error hnodup hk hfail hok

/-- Witness for C1: two eligible files, the first fails to decode. -/
theorem batch_error_isolated_witness :
    ((["a.jpg", "b.jpg"] : List String).Nodup
      ∧ "a.jpg" ∈ images ["a.jpg", "b.jpg"]
      ∧ (process_image exWorldDecodeFail false "a.jpg" (out_path "out" "a.jpg")).1
          = .error "boom"
      ∧ (∀ p ∈ images ["a.jpg", "b.jpg"], p ≠ "a.jpg" →
          (process_image exWorldDecodeFail false p (out_path "out" p)).1 = .ok ()))
    ∧ IsolatedSpec exWorldDecodeFail false "out" ["a.jpg", "b.jpg"] "a.jpg" "boom" := by
  have hok : ∀ p ∈ images ["a.jpg", "b.jpg"], p ≠ "a.jpg" →
      (process_image exWorldDecodeFail false p (out_path "out" p)).1 = .ok () := by
    intro p hp hne
    have him : images ["a.jpg", "b.jpg"] = ["a.jpg", "b.jpg"] := by decide
    rw [him] at hp
    rcases List.mem_cons.mp hp with rfl | hp2
    · exact absurd rfl hne
    · rcases List.mem_cons.mp hp2 with rfl | hp3
      · rfl
      · cases hp3
  exact ⟨⟨by decide, by decide, rfl, hok⟩,
    batch_error_isolated exWorldDecodeFail false "out" ["a.jpg", "b.jpg"] "a.jpg" "boom"
      (by decide) (by decide) rfl hok⟩

/-- **C8 counterexample.** A run over one eligible file whose destination
cannot be written, the failure being signalled only by `cv2.imwrite`'s
`False` return value: the item is invoked, no file is written, and yet the
warning list is empty — the write failure is silently dropped, refuting the
claim that every such item produces at least one warning. -/
theorem imwrite_false_silently_dropped :
    invocationsOf (mainRun exWorldImwriteFalse false "out" ["a.png"])
      = [("a.png", "out/a_transparent.png")]
    ∧ writesOf (mainRun exWorldImwriteFalse false "out" ["a.png"]) = []
    ∧ warningsOf (mainRun exWorldImwriteFalse false "out" ["a.png"]) = [] := by
  refine ⟨rfl, rfl, rfl⟩

/-- **C8 (amended).** A destination-write failure that raises an exception
(e.g. `mkdir` permission error, or any raising failure inside the write
step) is fatal to that item only and is reported: the run emits exactly one
warning carrying the filename and the cause, and every other item is still
invoked.  (A failure signalled only by `cv2.imwrite`'s ignored boolean
return value is silently dropped — see the counterexample.) -/
theorem write_exception_isolated (w : World) (center : Bool) (od : String)
    (listing : List String) (k e : String) (img : Img) (hnd : listing.Nodup)
    (hk : k ∈ images listing)
    (hd : w.decode k = .ok img)
    (hw : w.write (out_path od k) (transformed w center img) = .error e)
    (hok : ∀ p ∈ images listing, p ≠ k →
        (process_image w center p (out_path od p)).1 = .ok ()) :
    IsolatedSpec w center od listing k e := by
  have hfail : (process_image w center k (out_path od k)).1 = .error e := by
    rw [process_image_ok_decode hd, writeStep_error hw]
  have hnodup : (images listing).Nodup :=
    (List.perm_insertionSort _ _).symm.nodup (hnd.filter _)
  constructor
  · rw [mainRun_eq]
    exact invocationsOf_runBatch w center od (images listing)
  · rw [mainRun_eq]
    exact warningsOf_runBatch_one_error hnodup hk hfail hok

/-- Witness for the amended C8: one eligible file whose write raises. -/
theorem write_exception_isolated_witness :
    ((["a.png"] : List String).Nodup
      ∧ "a.png" ∈ images ["a.png"]
      ∧ exWorldWriteRaise.decode "a.png" = .ok (Img.mk 1 1 4 (fun _ _ _ => 1))
      ∧ exWorldWriteRaise.write (out_path "out" "a.png")
          (transformed exWorldWriteRaise false (Img.mk 1 1 4 (fun _ _ _ => 1)))
          = .error "Permission denied")
    ∧ IsolatedSpec exWorldWriteRaise false "out" ["a.png"] "a.png" "Permission denied" := by
  have hok : ∀ p ∈ images ["a.png"], p ≠ "a.png" →
      (process_image exWorldWriteRaise false p (out_path "out" p)).1 = .ok () := by
    intro p hp hne
    have him : images ["a.png"] = ["a.png"] := by decide
    rw [him] at hp
    rcases List.mem_cons.mp hp with rfl | hp2
    · exact absurd rfl hne
    · cases hp2
  exact ⟨⟨by decide, by decide, rfl, rfl⟩,
    write_exception_isolated exWorldWriteRaise false "out" ["a.png"] "a.png"
      "Permission denied" (Img.mk 1 1 4 (fun _ _ _ => 1)) (by decide) (by decide)
      rfl rfl hok⟩

/-- **C10.** When the two eligible files have equal stems but different
extensions, the orchestrator derives the identical destination for both, so
the output of the lexicographically earlier file is overwritten by that of
the later one, with no warning or error about the collision. -/
theorem stem_collision_overwrites (w : World) (center : Bool) (od : String)
    (listing : List String) (n1 n2 : String) (i1 i2 : Img)
    (hsort : images listing = [n1, n2])
    (hstem : stemOf n1 = stemOf n2)
    (hd1 : w.decode n1 = .ok i1) (hd2 : w.decode n2 = .ok i2)
    (hw : ∀ d img, w.write d img = .ok true) :
    CollisionSpec w center od listing n1 n2 i2 := by
  have hdq : out_path od n1 = out_path od n2 := by
    unfold out_path out_name
    rw [hstem]
  have hp1 : process_image w center n1 (out_path od n1)
      = (.ok (), [(out_path od n1, transformed w center i1)]) := by
    rw [process_image_ok_decode hd1, writeStep_ok (hw _ _)]
    rfl
  have hp2 : process_image w center n2 (out_path od n2)
      = (.ok (), [(out_path od n2, transformed w center i2)]) := by
    rw [process_image_ok_decode hd2, writeStep_ok (hw _ _)]
    rfl
  have htr : mainRun w center od listing
      = (Event.invoked n1 (out_path od n1)
          :: [(out_path od n1, transformed w center i1)].map
              (fun pr => Event.wrote pr.1 pr.2))
        ++ ((Event.invoked n2 (out_path od n2)
          :: [(out_path od n2, transformed w center i2)].map
              (fun pr => Event.wrote pr.1 pr.2))
          ++ runBatch w center od []) := by
    rw [mainRun_eq, hsort, runBatch_cons_ok [n2] hp1, runBatch_cons_ok [] hp2]
  refine ⟨hdq, ?_, ?_⟩
  · rw [htr, warningsOf_append, warningsOf_cons_invoked, warningsOf_wrotes,
      warningsOf_append, warningsOf_cons_invoked, warningsOf_wrotes]
    rfl
  · rw [htr]
    unfold finalFile
    rw [writesOf_append, writesOf_cons_invoked, writesOf_wrotes,
      writesOf_append, writesOf_cons_invoked, writesOf_wrotes]
    have hnil : writesOf (runBatch w center od []) = [] := rfl
    rw [hnil]
    simp only [List.append_nil, List.singleton_append, List.foldl_cons, List.foldl_nil]
    rw [if_pos hdq.symm]

/-- Witness for C10 on `a.jpg` and `a.png`. -/
theorem stem_collision_overwrites_witness :
    (images ["a.png", "a.jpg"] = ["a.jpg", "a.png"]
      ∧ stemOf "a.jpg" = stemOf "a.png"
      ∧ exWorldCollide.decode "a.jpg" = .ok (Img.mk 1 1 4 (fun _ _ _ => 1))
      ∧ exWorldCollide.decode "a.png" = .ok (Img.mk 1 1 4 (fun _ _ _ => 2))
      ∧ ∀ d img, exWorldCollide.write d img = .ok true)
    ∧ CollisionSpec exWorldCollide false "out" ["a.png", "a.jpg"] "a.jpg" "a.png"
        (Img.mk 1 1 4 (fun _ _ _ => 2)) :=
  ⟨⟨by decide, by decide, rfl, rfl, fun _ _ => rfl⟩,
    stem_collision_overwrites exWorldCollide false "out" ["a.png", "a.jpg"]
      "a.jpg" "a.png" (Img.mk 1 1 4 (fun _ _ _ => 1)) (Img.mk 1 1 4 (fun _ _ _ => 2))
      (by decide) (by decide) rfl rfl (fun _ _ => rfl)⟩
